import Mathlib

/-!
Verification of the waveform-quality evaluation core of `vhdl_sincos_gen`
(`tools/eval_sine_quality.py`).

A sample set is the `(N, 2)` integer array `data` read by the tool: a list of
rows `(sin_code, cos_code)`.  The integer-arithmetic part of the analysis
(structural identity checks, which the source performs with in-place numpy
slice arithmetic) is embedded as computable functions together with the
explicit post-state of the `data` array; the floating-point part (offset,
amplitude, phase, error metrics, SINAD/ENOB, SFDR) is embedded over `ℝ`/`ℂ`
as functions of the sine column.
-/

namespace SineQual

/-- A sample set: the rows of the `(N, 2)` integer array `data`,
each row being `(sin_code, cos_code)`. -/
abbrev SampleSet := List (Int × Int)

/-- `n = data.shape[0]`, the number of samples. -/
def numSamples (d : SampleSet) : Nat := d.length

/-- `dsin = numpy.copy(data[:,0])`: the sine column (a private copy). -/
def dsin (d : SampleSet) : List Int := d.map Prod.fst

/-- `data[:,1]`: the cosine column as it stands in the array. -/
def dcos (d : SampleSet) : List Int := d.map Prod.snd

/-- Reduction to the `numpy.int64` representative: numpy elementwise
arithmetic on the `int64` sample array is modular in `2^64`, with results
in `[-2^63, 2^63)` (`2^63 = 9223372036854775808`,
`2^64 = 18446744073709551616`). -/
def wrap64 (x : Int) : Int :=
  (x + 9223372036854775808) % 18446744073709551616 - 9223372036854775808

/-- Membership in the `numpy.int64` range `[-2^63, 2^63)`. -/
def inInt64 (x : Int) : Prop :=
  -9223372036854775808 ≤ x ∧ x < 9223372036854775808

instance (x : Int) : Decidable (inInt64 x) := by
  unfold inInt64; infer_instance

/-- Every sample of the set is in the int64 range — guaranteed by
`read_data`, which stores each parsed value into a `numpy.int64` array
before the core runs. -/
def boundedSamples (d : SampleSet) : Prop :=
  ∀ p ∈ d, inInt64 p.1 ∧ inInt64 p.2

instance (d : SampleSet) : Decidable (boundedSamples d) := by
  unfold boundedSamples; infer_instance

/-- Minimum of a non-empty list (`numpy.amin`); `default` on `[]`,
which the analysis never hits. -/
def listMin {α : Type} [LinearOrder α] [Inhabited α] : List α → α
  | [] => default
  | x :: xs => xs.foldl min x

/-- Maximum of a non-empty list (`numpy.amax`); `default` on `[]`. -/
def listMax {α : Type} [LinearOrder α] [Inhabited α] : List α → α
  | [] => default
  | x :: xs => xs.foldl max x

/-- The phase-shifted sine sequence the source aligns the cosine column with:
`dsin[n//4:]` followed by `dsin[0:n//4]` (the wrapped quarter). -/
def shiftedSin (s : List Int) : List Int :=
  s.drop (s.length / 4) ++ s.take (s.length / 4)

/-- The values left in the cosine column by
`dcos[0:3*n//4] -= dsin[n//4:]; dcos[3*n//4:] -= dsin[0:n//4]`:
elementwise `cos - shifted sin`, wrapped into int64 as the in-place numpy
subtraction is. -/
def quarterDiff (d : SampleSet) : List Int :=
  List.zipWith (fun c s => wrap64 (c - s)) (dcos d) (shiftedSin (dsin d))

/-- `tmin = numpy.amin(dcos)` after the in-place subtraction. -/
def quarterMin (d : SampleSet) : Int := listMin (quarterDiff d)

/-- `tmax = numpy.amax(dcos)` after the in-place subtraction. -/
def quarterMax (d : SampleSet) : Int := listMax (quarterDiff d)

/-- The state of the `data` array after `eval_sine_quality` returns:
`dcos` is a view of `data[:,1]`, so the in-place subtraction of the
quarter-period check writes through into the caller's array, while the sine
column was protected by `numpy.copy`. -/
def postData (d : SampleSet) : SampleSet :=
  List.zipWith (fun p q => (p.1, q)) d (quarterDiff d)

/-- `t = dsin[0:n//2] + dsin[n//2:]`, the half-period elementwise sums —
int64 addition, so wrapped. -/
def halfSum (s : List Int) : List Int :=
  List.zipWith (fun a b => wrap64 (a + b)) (s.take (s.length / 2)) (s.drop (s.length / 2))

/-- `tmin = numpy.amin(t)` for the half-period check. -/
def halfMin (d : SampleSet) : Int := listMin (halfSum (dsin d))

/-- `tmax = numpy.amax(t)` for the half-period check. -/
def halfMax (d : SampleSet) : Int := listMax (halfSum (dsin d))

/-- `dsin[i]` (0 outside the range, never consulted there). -/
def sinAt (d : SampleSet) (i : Nat) : Int := (dsin d).getD i 0

/-- `data[i,1]`, the original cosine sample. -/
def cosAt (d : SampleSet) (i : Nat) : Int := (dcos d).getD i 0

/-- The assertions at the top of `eval_sine_quality`:
`assert n >= 4 and n % 4 == 0` (the `(N,2)` shape is carried by the type). -/
def assertsOk (d : SampleSet) : Prop :=
  4 ≤ numSamples d ∧ numSamples d % 4 = 0

instance (d : SampleSet) : Decidable (assertsOk d) := by
  unfold assertsOk; infer_instance

/-- The record-length gate in `main`: it rejects when
`data.shape[0] < 4 or (data.shape[0] & (data.shape[0] - 1)) != 0`. -/
def shapeOk (n : Nat) : Bool :=
  decide (4 ≤ n) && decide (n &&& (n - 1) = 0)

/-- The integer-valued results of one run of `eval_sine_quality`, together
with the post-state of the `data` array: the guarded core, returning `none`
exactly when one of its assertions fires. -/
def evalChecked (d : SampleSet) :
    Option ((Int × Int × Int × Int) × SampleSet) :=
  if assertsOk d then
    some ((quarterMin d, quarterMax d, halfMin d, halfMax d), postData d)
  else none

/-- The driver `main`: runs the analysis only behind the power-of-two
record-length gate. -/
def mainRun (d : SampleSet) :
    Option ((Int × Int × Int × Int) × SampleSet) :=
  if shapeOk (numSamples d) then
    some ((quarterMin d, quarterMax d, halfMin d, halfMax d), postData d)
  else none

/-! ### Generic facts about `listMin` / `listMax` -/

theorem foldl_min_le_init {α : Type} [LinearOrder α] (xs : List α) (a : α) :
    xs.foldl min a ≤ a := by
  induction xs generalizing a with
  | nil => exact le_refl a
  | cons x xs ih => exact le_trans (ih (min a x)) (min_le_left a x)

theorem foldl_min_le_mem {α : Type} [LinearOrder α] (xs : List α) (a x : α)
    (hx : x ∈ xs) : xs.foldl min a ≤ x := by
  induction xs generalizing a with
  | nil => cases hx
  | cons y ys ih =>
    rcases List.mem_cons.mp hx with h | h
    · subst h
      exact le_trans (foldl_min_le_init ys (min a x)) (min_le_right a x)
    · exact ih (min a y) h

theorem foldl_min_mem {α : Type} [LinearOrder α] (xs : List α) (a : α) :
    xs.foldl min a = a ∨ xs.foldl min a ∈ xs := by
  induction xs generalizing a with
  | nil => exact Or.inl rfl
  | cons y ys ih =>
    rcases ih (min a y) with h | h
    · rcases le_total a y with hay | hya
      · exact Or.inl (by show ys.foldl min (min a y) = a; rw [h, min_eq_left hay])
      · refine Or.inr ?_
        show ys.foldl min (min a y) ∈ y :: ys
        rw [h, min_eq_right hya]
        exact List.mem_cons_self y ys
    · exact Or.inr (List.mem_cons_of_mem _ h)

theorem le_foldl_max_init {α : Type} [LinearOrder α] (xs : List α) (a : α) :
    a ≤ xs.foldl max a := by
  induction xs generalizing a with
  | nil => exact le_refl a
  | cons x xs ih => exact le_trans (le_max_left a x) (ih (max a x))

theorem le_foldl_max_mem {α : Type} [LinearOrder α] (xs : List α) (a x : α)
    (hx : x ∈ xs) : x ≤ xs.foldl max a := by
  induction xs generalizing a with
  | nil => cases hx
  | cons y ys ih =>
    rcases List.mem_cons.mp hx with h | h
    · subst h
      exact le_trans (le_max_right a x) (le_foldl_max_init ys (max a x))
    · exact ih (max a y) h

theorem foldl_max_mem {α : Type} [LinearOrder α] (xs : List α) (a : α) :
    xs.foldl max a = a ∨ xs.foldl max a ∈ xs := by
  induction xs generalizing a with
  | nil => exact Or.inl rfl
  | cons y ys ih =>
    rcases ih (max a y) with h | h
    · rcases le_total y a with hya | hay
      · exact Or.inl (by show ys.foldl max (max a y) = a; rw [h, max_eq_left hya])
      · refine Or.inr ?_
        show ys.foldl max (max a y) ∈ y :: ys
        rw [h, max_eq_right hay]
        exact List.mem_cons_self y ys
    · exact Or.inr (List.mem_cons_of_mem _ h)

theorem listMin_le {α : Type} [LinearOrder α] [Inhabited α]
    {l : List α} {x : α} (hx : x ∈ l) : listMin l ≤ x := by
  cases l with
  | nil => cases hx
  | cons y ys =>
    rcases List.mem_cons.mp hx with h | h
    · subst h; exact foldl_min_le_init ys x
    · exact foldl_min_le_mem ys y x h

theorem listMin_mem {α : Type} [LinearOrder α] [Inhabited α]
    {l : List α} (hl : l ≠ []) : listMin l ∈ l := by
  cases l with
  | nil => exact absurd rfl hl
  | cons y ys =>
    show ys.foldl min y ∈ y :: ys
    rcases foldl_min_mem ys y with h | h
    · rw [h]; exact List.mem_cons_self y ys
    · exact List.mem_cons_of_mem _ h

theorem le_listMax {α : Type} [LinearOrder α] [Inhabited α]
    {l : List α} {x : α} (hx : x ∈ l) : x ≤ listMax l := by
  cases l with
  | nil => cases hx
  | cons y ys =>
    rcases List.mem_cons.mp hx with h | h
    · subst h; exact le_foldl_max_init ys x
    · exact le_foldl_max_mem ys y x h

theorem listMax_mem {α : Type} [LinearOrder α] [Inhabited α]
    {l : List α} (hl : l ≠ []) : listMax l ∈ l := by
  cases l with
  | nil => exact absurd rfl hl
  | cons y ys =>
    show ys.foldl max y ∈ y :: ys
    rcases foldl_max_mem ys y with h | h
    · rw [h]; exact List.mem_cons_self y ys
    · exact List.mem_cons_of_mem _ h

/-! ### Lengths and indexing of the slice arithmetic -/

theorem dsin_length (d : SampleSet) : (dsin d).length = numSamples d := by
  simp [dsin, numSamples]

theorem dcos_length (d : SampleSet) : (dcos d).length = numSamples d := by
  simp [dcos, numSamples]

theorem shiftedSin_length (s : List Int) : (shiftedSin s).length = s.length := by
  have h := Nat.div_le_self s.length 4
  simp [shiftedSin]
  omega

theorem quarterDiff_length (d : SampleSet) :
    (quarterDiff d).length = numSamples d := by
  simp [quarterDiff, shiftedSin_length, dsin_length, dcos_length]

theorem halfSum_length (s : List Int) : (halfSum s).length = s.length / 2 := by
  have h := Nat.div_le_self s.length 2
  have h2 : s.length / 2 + s.length / 2 ≤ s.length := by omega
  simp [halfSum]
  omega

/-- Indexing the wrapped phase-shifted sine sequence is modular indexing:
`shiftedSin s !! i = s !! ((i + N/4) mod N)`. -/
theorem shiftedSin_getD (s : List Int) (i : Nat) (h : i < s.length) :
    (shiftedSin s).getD i 0 = s.getD ((i + s.length / 4) % s.length) 0 := by
  have hn : 0 < s.length := by omega
  have hq : s.length / 4 ≤ s.length := Nat.div_le_self _ _
  rw [show shiftedSin s = s.drop (s.length / 4) ++ s.take (s.length / 4) from rfl]
  have hlen : (s.drop (s.length / 4) ++ s.take (s.length / 4)).length = s.length := by
    simp; omega
  by_cases hi : i < s.length - s.length / 4
  · have hmod : (i + s.length / 4) % s.length = i + s.length / 4 :=
      Nat.mod_eq_of_lt (by omega)
    rw [hmod, List.getD_eq_getElem _ _ (by omega),
        List.getD_eq_getElem _ _ (by omega)]
    rw [List.getElem_append_left (by simp; omega)]
    rw [List.getElem_drop]
    congr 1
    omega
  · have hmod : (i + s.length / 4) % s.length = i + s.length / 4 - s.length := by
      rw [Nat.mod_eq_sub_mod (by omega), Nat.mod_eq_of_lt (by omega)]
    rw [hmod, List.getD_eq_getElem _ _ (by omega),
        List.getD_eq_getElem _ _ (by omega)]
    rw [List.getElem_append_right (by simp; omega)]
    rw [List.getElem_take]
    congr 1
    simp
    omega

/-- The quarter-period deviation at every index is the int64-wrapped
`cos[i] - sin[(i + N/4) mod N]`. -/
theorem quarterDiff_getD (d : SampleSet) (i : Nat) (h : i < numSamples d) :
    (quarterDiff d).getD i 0 =
      wrap64 (cosAt d i - sinAt d ((i + numSamples d / 4) % numSamples d)) := by
  have hql := quarterDiff_length d
  have hsl := dsin_length d
  have hcl := dcos_length d
  have hshl : (shiftedSin (dsin d)).length = numSamples d := by
    rw [shiftedSin_length, hsl]
  rw [List.getD_eq_getElem _ _ (by omega)]
  unfold quarterDiff
  rw [List.getElem_zipWith]
  have h1 : cosAt d i = (dcos d)[i] :=
    List.getD_eq_getElem _ _ (by omega)
  have h2 : (shiftedSin (dsin d))[i] =
      sinAt d ((i + numSamples d / 4) % numSamples d) := by
    rw [← List.getD_eq_getElem _ _ (by omega)]
    rw [shiftedSin_getD (dsin d) i (by omega)]
    unfold sinAt
    rw [hsl]
  rw [← h1, h2]

/-- The half-period entry at every index `i < N/2` is the int64-wrapped
`sin[i] + sin[i + N/2]`. -/
theorem halfSum_getD (s : List Int) (i : Nat) (h : i < s.length / 2) :
    (halfSum s).getD i 0 = wrap64 (s.getD i 0 + s.getD (i + s.length / 2) 0) := by
  have hn : s.length / 2 + s.length / 2 ≤ s.length := by
    have := Nat.div_le_self s.length 2; omega
  have hhl := halfSum_length s
  rw [List.getD_eq_getElem _ _ (by omega)]
  unfold halfSum
  rw [List.getElem_zipWith]
  have ht : (s.take (s.length / 2)).length = s.length / 2 := by
    rw [List.length_take]
    omega
  have hd : (s.drop (s.length / 2)).length = s.length - s.length / 2 := by
    rw [List.length_drop]
  have h1 : (s.take (s.length / 2))[i] = s.getD i 0 := by
    rw [List.getElem_take, ← List.getD_eq_getElem _ _ (by omega)]
  have h2 : (s.drop (s.length / 2))[i] =
      s.getD (i + s.length / 2) 0 := by
    rw [List.getElem_drop, ← List.getD_eq_getElem _ _ (by omega)]
    congr 1
    omega
  rw [h1, h2]

/-! ### The post-state of the `data` array -/

theorem map_fst_zipWith_pair (l₁ : List (Int × Int)) (l₂ : List Int)
    (h : l₁.length ≤ l₂.length) :
    (List.zipWith (fun p q => (p.1, q)) l₁ l₂).map Prod.fst = l₁.map Prod.fst := by
  induction l₁ generalizing l₂ with
  | nil => simp
  | cons p ps ih =>
    cases l₂ with
    | nil => simp at h
    | cons q qs =>
      simp only [List.zipWith_cons_cons, List.map_cons]
      rw [ih qs (by simpa using h)]

theorem map_snd_zipWith_pair (l₁ : List (Int × Int)) (l₂ : List Int)
    (h : l₂.length ≤ l₁.length) :
    (List.zipWith (fun p q => (p.1, q)) l₁ l₂).map Prod.snd = l₂ := by
  induction l₁ generalizing l₂ with
  | nil => cases l₂ with
    | nil => simp
    | cons q qs => simp at h
  | cons p ps ih =>
    cases l₂ with
    | nil => simp
    | cons q qs =>
      simp only [List.zipWith_cons_cons, List.map_cons]
      rw [ih qs (by simpa using h)]

/-- The sine column of the array is unchanged by the analysis
(it was protected by `numpy.copy`). -/
theorem dsin_postData (d : SampleSet) : dsin (postData d) = dsin d := by
  unfold postData dsin
  exact map_fst_zipWith_pair d (quarterDiff d)
    (by rw [quarterDiff_length]; exact le_refl _)

/-- The cosine column of the array has been overwritten in place with the
quarter-period deviations: `dcos = data[:,1]` is a view, not a copy. -/
theorem dcos_postData (d : SampleSet) : dcos (postData d) = quarterDiff d := by
  unfold postData dcos
  exact map_snd_zipWith_pair d (quarterDiff d)
    (by rw [quarterDiff_length]; exact le_refl _)

theorem numSamples_postData (d : SampleSet) :
    numSamples (postData d) = numSamples d := by
  have := quarterDiff_length d
  simp [postData, numSamples] at this ⊢
  omega

/-! ### Int64 wrapping facts -/

theorem wrap64_zero : wrap64 0 = 0 := by
  unfold wrap64
  omega

theorem wrap64_of_inInt64 {x : Int} (h : inInt64 x) : wrap64 x = x := by
  unfold inInt64 at h
  unfold wrap64
  omega

theorem wrap64_sub_eq_zero_iff {c s : Int} (hc : inInt64 c) (hs : inInt64 s) :
    wrap64 (c - s) = 0 ↔ c = s := by
  unfold inInt64 at hc hs
  unfold wrap64
  omega

/-- For int64 inputs the wrapped sum is zero iff the exact sum is zero,
except in the single corner where both summands are the int64 minimum
`-2^63` and the exact sum `-2^64` wraps to zero. -/
theorem wrap64_add_eq_zero_iff {a b : Int} (ha : inInt64 a) (hb : inInt64 b) :
    wrap64 (a + b) = 0 ↔
      (a + b = 0 ∨ (a = -9223372036854775808 ∧ b = -9223372036854775808)) := by
  unfold inInt64 at ha hb
  unfold wrap64
  omega

theorem sinAt_bounded {d : SampleSet} (hb : boundedSamples d) (i : Nat) :
    inInt64 (sinAt d i) := by
  unfold sinAt dsin
  by_cases hi : i < (d.map Prod.fst).length
  · have hid : i < d.length := by simpa using hi
    rw [List.getD_eq_getElem _ _ hi, List.getElem_map]
    exact (hb _ (List.getElem_mem hid)).1
  · rw [List.getD_eq_default _ _ (by omega)]
    unfold inInt64
    omega

theorem cosAt_bounded {d : SampleSet} (hb : boundedSamples d) (i : Nat) :
    inInt64 (cosAt d i) := by
  unfold cosAt dcos
  by_cases hi : i < (d.map Prod.snd).length
  · have hid : i < d.length := by simpa using hi
    rw [List.getD_eq_getElem _ _ hi, List.getElem_map]
    exact (hb _ (List.getElem_mem hid)).2
  · rw [List.getD_eq_default _ _ (by omega)]
    unfold inInt64
    omega

/-! ### The `n & (n-1) == 0` power-of-two test -/

theorem land_two_mul_pred (m : Nat) (hm : 0 < m) :
    (2 * m) &&& (2 * m - 1) = 2 * (m &&& (m - 1)) := by
  apply Nat.eq_of_testBit_eq
  intro i
  have e1 : 2 * m / 2 = m := by omega
  have e2 : (2 * m - 1) / 2 = m - 1 := by omega
  have e3 : 2 * (m &&& (m - 1)) / 2 = m &&& (m - 1) := by omega
  cases i with
  | zero =>
    simp [Nat.testBit_land, Nat.testBit_zero, Nat.mul_mod_right]
  | succ i =>
    rw [Nat.testBit_land, Nat.testBit_succ, Nat.testBit_succ, Nat.testBit_succ,
      e1, e2, e3, Nat.testBit_land]

theorem land_odd_pred (m : Nat) : (2 * m + 1) &&& (2 * m) = 2 * m := by
  apply Nat.eq_of_testBit_eq
  intro i
  have e1 : (2 * m + 1) / 2 = m := by omega
  have e2 : 2 * m / 2 = m := by omega
  cases i with
  | zero =>
    simp [Nat.testBit_land, Nat.testBit_zero, Nat.mul_mod_right]
  | succ i =>
    rw [Nat.testBit_land, Nat.testBit_succ, Nat.testBit_succ,
      e1, e2, Bool.and_self]

theorem pow_two_of_land_pred : ∀ n : Nat, 0 < n → n &&& (n - 1) = 0 →
    ∃ k, n = 2 ^ k := by
  intro n
  induction n using Nat.strong_induction_on with
  | _ n ih =>
    intro hn h
    rcases Nat.even_or_odd n with he | ho
    · obtain ⟨m, hm⟩ := he
      have hm2 : n = 2 * m := by omega
      have hmpos : 0 < m := by omega
      have h' : (2 * m) &&& (2 * m - 1) = 0 := by rw [← hm2]; exact h
      rw [land_two_mul_pred m hmpos] at h'
      obtain ⟨k, hk⟩ := ih m (by omega) hmpos (by omega)
      exact ⟨k + 1, by rw [hm2, hk, pow_succ]; ring⟩
    · obtain ⟨m, hm⟩ := ho
      rcases Nat.eq_zero_or_pos m with hm0 | hmpos
      · exact ⟨0, by omega⟩
      · exfalso
        have h' : (2 * m + 1) &&& (2 * m) = 0 := by
          have h1 := h
          rw [hm] at h1
          simpa using h1
        rw [land_odd_pred] at h'
        omega

theorem land_pred_of_pow_two (k : Nat) : (2 ^ k) &&& (2 ^ k - 1) = 0 := by
  rw [Nat.and_pow_two_sub_one_eq_mod]
  exact Nat.mod_self _

/-- The driver's record-length gate passes exactly on the powers of two
that are at least 4. -/
theorem shapeOk_iff (n : Nat) :
    shapeOk n = true ↔ (4 ≤ n ∧ ∃ k, n = 2 ^ k) := by
  unfold shapeOk
  rw [Bool.and_eq_true, decide_eq_true_iff, decide_eq_true_iff]
  constructor
  · rintro ⟨h4, hl⟩
    exact ⟨h4, pow_two_of_land_pred n (by omega) hl⟩
  · rintro ⟨h4, k, hk⟩
    exact ⟨h4, by rw [hk]; exact land_pred_of_pow_two k⟩

/-! ### The real-valued analysis, as functions of the sine column -/

noncomputable section

/-- The reference angle of sample `i`: `2 * numpy.pi / n * i`. -/
def theta (n i : Nat) : ℝ := 2 * Real.pi / n * i

/-- The `i`-th sample of a column, as a real number. -/
def elemR (s : List Int) (i : Nat) : ℝ := ((s.getD i 0 : Int) : ℝ)

/-- `offs = numpy.mean(dsin)`. -/
def offsL (s : List Int) : ℝ :=
  (∑ i ∈ Finset.range s.length, elemR s i) / s.length

/-- `asin = numpy.sum(dsin * numpy.sin(2*numpy.pi/n*numpy.arange(n))) * 2.0 / n`. -/
def asinL (s : List Int) : ℝ :=
  (∑ i ∈ Finset.range s.length, elemR s i * Real.sin (theta s.length i)) * 2 / s.length

/-- `acos = numpy.sum(dsin * numpy.cos(2*numpy.pi/n*numpy.arange(n))) * 2.0 / n`. -/
def acosL (s : List Int) : ℝ :=
  (∑ i ∈ Finset.range s.length, elemR s i * Real.cos (theta s.length i)) * 2 / s.length

/-- `ampl = numpy.sqrt(asin**2 + acos**2)`. -/
def amplL (s : List Int) : ℝ := Real.sqrt (asinL s ^ 2 + acosL s ^ 2)

/-- Mathematical two-argument arctangent with the branch structure of
`numpy.arctan2 (y, x)` (signed zeros aside, which `ℝ` does not have). -/
def arctan2 (y x : ℝ) : ℝ :=
  if 0 < x then Real.arctan (y / x)
  else if x < 0 then
    (if 0 ≤ y then Real.arctan (y / x) + Real.pi else Real.arctan (y / x) - Real.pi)
  else if 0 < y then Real.pi / 2
  else if y < 0 then -(Real.pi / 2)
  else 0

/-- `phase = numpy.arctan2(acos, asin)`. -/
def phaseL (s : List Int) : ℝ := arctan2 (acosL s) (asinL s)

/-- `terr = dsin - ampl * numpy.sin(2*numpy.pi/n*numpy.arange(n))`:
the deviation from the amplitude-matched, zero-phase reference tone. -/
def terrL (s : List Int) (i : Nat) : ℝ :=
  elemR s i - amplL s * Real.sin (theta s.length i)

/-- `peakerr = numpy.amax(numpy.abs(terr))`. -/
def peakerrL (s : List Int) : ℝ :=
  listMax ((List.range s.length).map fun i => |terrL s i|)

/-- The mean of the error sequence (inside `numpy.std`). -/
def errMeanL (s : List Int) : ℝ :=
  (∑ i ∈ Finset.range s.length, terrL s i) / s.length

/-- `rmserr = numpy.std(terr)`: the population standard deviation. -/
def rmserrL (s : List Int) : ℝ :=
  Real.sqrt ((∑ i ∈ Finset.range s.length, (terrL s i - errMeanL s) ^ 2) / s.length)

/-- `sinad = 20 * numpy.log10(ampl * numpy.sqrt(0.5) / rmserr)`. -/
def sinadL (s : List Int) : ℝ :=
  20 * Real.logb 10 (amplL s * Real.sqrt 0.5 / rmserrL s)

/-- `(sinad - 1.76) / 6.02`, the effective number of bits. -/
def enobL (s : List Int) : ℝ := (sinadL s - 1.76) / 6.02

/-- Bin `k` of `numpy.fft.rfft(dsin)`:
`Σ_j dsin[j] · exp(-2πi·j·k/n)` for `k` in `[0, n/2]`. -/
def rfftBin (s : List Int) (k : Nat) : ℂ :=
  ∑ j ∈ Finset.range s.length,
    ((s.getD j 0 : Int) : ℂ) * Complex.exp (-(2 * Real.pi * Complex.I * j * k) / s.length)

/-- `tampl = numpy.abs(q[1])`, the magnitude of the fundamental bin. -/
def tamplL (s : List Int) : ℝ := Complex.abs (rfftBin s 1)

/-- `numpy.abs(q[2:])`: the magnitudes of bins `2 .. n/2`. -/
def spurAbs (s : List Int) : List ℝ :=
  ((List.range (s.length / 2 + 1)).drop 2).map fun k => Complex.abs (rfftBin s k)

/-- `tspur = numpy.amax(numpy.abs(q[2:]))`, the largest spur magnitude. -/
def tspurL (s : List Int) : ℝ := listMax (spurAbs s)

/-- `sfdr = 20 * numpy.log10(tampl / tspur)`. -/
def sfdrL (s : List Int) : ℝ := 20 * Real.logb 10 (tamplL s / tspurL s)

/-! The same metrics applied to the sample set's sine column, under the
source's variable names. -/

def offs (d : SampleSet) : ℝ := offsL (dsin d)

def asin (d : SampleSet) : ℝ := asinL (dsin d)

def acos (d : SampleSet) : ℝ := acosL (dsin d)

def ampl (d : SampleSet) : ℝ := amplL (dsin d)

def phase (d : SampleSet) : ℝ := phaseL (dsin d)

def terr (d : SampleSet) (i : Nat) : ℝ := terrL (dsin d) i

def peakerr (d : SampleSet) : ℝ := peakerrL (dsin d)

def rmserr (d : SampleSet) : ℝ := rmserrL (dsin d)

def sinad (d : SampleSet) : ℝ := sinadL (dsin d)

def enob (d : SampleSet) : ℝ := enobL (dsin d)

def tampl (d : SampleSet) : ℝ := tamplL (dsin d)

def tspur (d : SampleSet) : ℝ := tspurL (dsin d)

def sfdr (d : SampleSet) : ℝ := sfdrL (dsin d)

/-- Modelled from the spec (§4.4): the population standard deviation of the
sequence `f` over `[0, n)`, the reference form for the RMS-error claim. -/
def popStd (n : Nat) (f : Nat → ℝ) : ℝ :=
  Real.sqrt ((∑ i ∈ Finset.range n, (f i - (∑ j ∈ Finset.range n, f j) / n) ^ 2) / n)

end

/-! ### Concrete sample sets used as witnesses and counterexamples -/

/-- Four samples with sine column `[0, 0, 0, 1]`: a valid set with
nonzero RMS error. -/
def sampleA : SampleSet := [(0, 0), (0, 0), (0, 0), (1, 0)]

/-- The all-zero four-sample set: a degenerate signal with zero RMS error. -/
def sampleZero : SampleSet := [(0, 0), (0, 0), (0, 0), (0, 0)]

/-- Sine column `[0, 1, 0, -1]` with an all-zero cosine column: the
quarter-period check writes nonzero deviations into the array. -/
def sampleMut : SampleSet := [(0, 0), (1, 0), (0, 0), (-1, 0)]

/-- Twelve zero samples: `N = 12` is divisible by 4 but not a power of two. -/
def sample12 : SampleSet := List.replicate 12 (0, 0)

/-- Int64-range samples whose quarter-period difference overflows int64:
`cos[0] = -6·10^18` and `sin[1] = 6·10^18` (both storable by `read_data`),
so `cos[0] - sin[1] = -12·10^18 < -2^63` wraps. -/
def sampleBig : SampleSet :=
  [(0, -6000000000000000000), (6000000000000000000, 0), (0, 0), (0, 0)]

/-- Int64-range samples whose half-period sum overflows int64:
`sin[0] = sin[2] = 6·10^18`, so `sin[0] + sin[2] = 12·10^18 > 2^63 - 1`
wraps. -/
def sampleHalfBig : SampleSet :=
  [(6000000000000000000, 0), (0, 0), (6000000000000000000, 0), (0, 0)]

/-! ### Claim theorems -/

/-- C4: the driver's validation passes exactly for sample counts that are
powers of two and at least 4 — failing in particular on 1, 3, 6, 1000 and
succeeding on 4, 8, 1024 — and on failure no analysis output is produced. -/
theorem claim_shape_validation :
    (∀ n : Nat, shapeOk n = true ↔ (4 ≤ n ∧ ∃ k, n = 2 ^ k))
    ∧ shapeOk 1 = false ∧ shapeOk 3 = false ∧ shapeOk 6 = false
    ∧ shapeOk 1000 = false
    ∧ shapeOk 4 = true ∧ shapeOk 8 = true ∧ shapeOk 1024 = true
    ∧ (∀ d : SampleSet, mainRun d = none ↔ shapeOk (numSamples d) = false) := by
  refine ⟨shapeOk_iff, by decide, by decide, by decide, by decide, by decide,
    by decide, by decide, ?_⟩
  intro d
  by_cases h : shapeOk (numSamples d) = true
  · simp [mainRun, h]
  · simp [mainRun, h]

/-- C10: the core `eval_sine_quality` itself only asserts `N ≥ 4` and
`N % 4 == 0`, strictly weaker than the driver's power-of-two gate: every
power-of-two length passes the core's assertions, and `N = 12` passes the
core's assertions (the guarded core runs to completion and produces its
results) while the driver's gate rejects it. -/
theorem claim_core_asserts_weaker :
    (∀ d : SampleSet, 4 ≤ numSamples d → numSamples d % 4 = 0 →
      evalChecked d =
        some ((quarterMin d, quarterMax d, halfMin d, halfMax d), postData d))
    ∧ (∀ d : SampleSet, numSamples d = 12 →
      evalChecked d =
        some ((quarterMin d, quarterMax d, halfMin d, halfMax d), postData d))
    ∧ shapeOk 12 = false
    ∧ (∀ n : Nat, shapeOk n = true → 4 ≤ n ∧ n % 4 = 0) := by
  refine ⟨?_, ?_, by decide, ?_⟩
  · intro d h4 hm
    simp [evalChecked, assertsOk, h4, hm]
  · intro d h12
    simp [evalChecked, assertsOk, h12]
  · intro n hn
    obtain ⟨h4, k, hk⟩ := (shapeOk_iff n).mp hn
    refine ⟨h4, ?_⟩
    match k with
    | 0 => omega
    | 1 => omega
    | m + 2 =>
      have : n = 4 * 2 ^ m := by rw [hk]; ring
      rw [this]
      exact Nat.mul_mod_right 4 _

theorem claim_core_asserts_weaker_witness :
    numSamples sample12 = 12 ∧
    evalChecked sample12 =
      some ((quarterMin sample12, quarterMax sample12, halfMin sample12,
        halfMax sample12), postData sample12) :=
  ⟨by decide, claim_core_asserts_weaker.2.1 sample12 (by decide)⟩

/-- C2 amended: the quarter-period check reports exactly the minimum and
maximum over all `i < N` of the int64-wrapped difference
`wrap64 (cos[i] - sin[(i + N/4) mod N])` — the in-place numpy int64
subtraction is modular — realized with the stated `3N/4` / `N/4` wrap
split; every entry whose exact signed difference fits in int64 is reported
exactly; and for int64-range samples the reported range is `(0, 0)` exactly
when the identity holds bit-exactly. -/
theorem claim_quarter_period_check (d : SampleSet)
    (h4 : 4 ≤ numSamples d) (hm : numSamples d % 4 = 0)
    (hb : boundedSamples d) :
    (∀ i < numSamples d, (quarterDiff d).getD i 0 =
        wrap64 (cosAt d i - sinAt d ((i + numSamples d / 4) % numSamples d)))
    ∧ (∀ i < 3 * numSamples d / 4, (quarterDiff d).getD i 0 =
        wrap64 (cosAt d i - sinAt d (i + numSamples d / 4)))
    ∧ (∀ i, 3 * numSamples d / 4 ≤ i → i < numSamples d →
        (quarterDiff d).getD i 0 =
          wrap64 (cosAt d i - sinAt d (i - 3 * numSamples d / 4)))
    ∧ (∀ i < numSamples d,
        inInt64 (cosAt d i - sinAt d ((i + numSamples d / 4) % numSamples d)) →
        (quarterDiff d).getD i 0 =
          cosAt d i - sinAt d ((i + numSamples d / 4) % numSamples d))
    ∧ (∀ i < numSamples d, quarterMin d ≤ (quarterDiff d).getD i 0)
    ∧ (∃ i, i < numSamples d ∧ quarterMin d = (quarterDiff d).getD i 0)
    ∧ (∀ i < numSamples d, (quarterDiff d).getD i 0 ≤ quarterMax d)
    ∧ (∃ i, i < numSamples d ∧ quarterMax d = (quarterDiff d).getD i 0)
    ∧ ((quarterMin d = 0 ∧ quarterMax d = 0) ↔
        ∀ i < numSamples d,
          cosAt d i = sinAt d ((i + numSamples d / 4) % numSamples d)) := by
  have hql := quarterDiff_length d
  have hmem : ∀ i < numSamples d, (quarterDiff d).getD i 0 ∈ quarterDiff d := by
    intro i hi
    rw [List.getD_eq_getElem _ _ (by omega)]
    exact List.getElem_mem _
  have hne : quarterDiff d ≠ [] := by
    intro hnil
    rw [hnil] at hql
    simp at hql
    omega
  have hminmem : ∃ i, i < numSamples d ∧ quarterMin d = (quarterDiff d).getD i 0 := by
    obtain ⟨j, hj, hval⟩ := List.mem_iff_getElem.mp (listMin_mem hne)
    exact ⟨j, by omega, by rw [List.getD_eq_getElem _ _ hj, hval]; rfl⟩
  have hmaxmem : ∃ i, i < numSamples d ∧ quarterMax d = (quarterDiff d).getD i 0 := by
    obtain ⟨j, hj, hval⟩ := List.mem_iff_getElem.mp (listMax_mem hne)
    exact ⟨j, by omega, by rw [List.getD_eq_getElem _ _ hj, hval]; rfl⟩
  have hminle : ∀ i < numSamples d, quarterMin d ≤ (quarterDiff d).getD i 0 :=
    fun i hi => listMin_le (hmem i hi)
  have hlemax : ∀ i < numSamples d, (quarterDiff d).getD i 0 ≤ quarterMax d :=
    fun i hi => le_listMax (hmem i hi)
  refine ⟨fun i hi => quarterDiff_getD d i hi, ?_, ?_, ?_, hminle, hminmem,
    hlemax, hmaxmem, ?_⟩
  · intro i hi
    rw [quarterDiff_getD d i (by omega), Nat.mod_eq_of_lt (by omega)]
  · intro i h3 hn
    rw [quarterDiff_getD d i hn]
    have hmod : (i + numSamples d / 4) % numSamples d = i - 3 * numSamples d / 4 := by
      rw [Nat.mod_eq_sub_mod (by omega), Nat.mod_eq_of_lt (by omega)]
      omega
    rw [hmod]
  · intro i hi hov
    rw [quarterDiff_getD d i hi, wrap64_of_inInt64 hov]
  · constructor
    · rintro ⟨hmin0, hmax0⟩ i hi
      have h1 := hminle i hi
      have h2 := hlemax i hi
      have h3 : (quarterDiff d).getD i 0 = 0 := by omega
      rw [quarterDiff_getD d i hi] at h3
      exact (wrap64_sub_eq_zero_iff (cosAt_bounded hb i) (sinAt_bounded hb _)).mp h3
    · intro hall
      have hz : ∀ i < numSamples d, (quarterDiff d).getD i 0 = 0 := by
        intro i hi
        rw [quarterDiff_getD d i hi, hall i hi, sub_self]
        exact wrap64_zero
      obtain ⟨i, hi, hv⟩ := hminmem
      obtain ⟨j, hj, hw⟩ := hmaxmem
      exact ⟨by rw [hv, hz i hi], by rw [hw, hz j hj]⟩

theorem claim_quarter_period_check_witness :
    4 ≤ numSamples sampleMut ∧ numSamples sampleMut % 4 = 0 ∧
    boundedSamples sampleMut ∧
    (∃ i, i < numSamples sampleMut ∧
      quarterMin sampleMut = (quarterDiff sampleMut).getD i 0) :=
  ⟨by decide, by decide, by decide,
    (claim_quarter_period_check sampleMut (by decide) (by decide)
      (by decide)).2.2.2.2.2.1⟩

/-- C2 counterexample: on int64-range samples that `read_data` accepts
(`cos[0] = -6·10^18`, shifted `sin = 6·10^18`), the program reports the
int64-wrapped value: the reported quarter-period minimum is 0, but the
exact signed difference at `i = 0` is `-12·10^18`, so the reported minimum
is not a lower bound of — hence not the minimum of — the exact signed
differences. -/
theorem claim_quarter_period_check_counterexample :
    boundedSamples sampleBig
    ∧ quarterMin sampleBig = 0
    ∧ cosAt sampleBig 0 -
        sinAt sampleBig ((0 + numSamples sampleBig / 4) % numSamples sampleBig)
        = -12000000000000000000
    ∧ ¬ (∀ i < numSamples sampleBig, quarterMin sampleBig ≤
        cosAt sampleBig i -
          sinAt sampleBig ((i + numSamples sampleBig / 4) % numSamples sampleBig)) :=
  ⟨by decide, by decide, by decide, by decide⟩

/-- C3 counterexample: at `sin[0] = sin[2] = 6·10^18` (int64-range, accepted
by `read_data`) the program's half-period entry wraps to
`-6446744073709551616`, which is not any of the exact integer sums, so the
reported minimum is not the minimum of the exact sums
`sin[i] + sin[i + N/2]`. -/
theorem claim_half_period_check_counterexample :
    boundedSamples sampleHalfBig
    ∧ halfMin sampleHalfBig = -6446744073709551616
    ∧ sinAt sampleHalfBig 0 + sinAt sampleHalfBig (numSamples sampleHalfBig / 2)
        = 12000000000000000000
    ∧ ¬ (∃ i, i < numSamples sampleHalfBig / 2 ∧
        halfMin sampleHalfBig =
          sinAt sampleHalfBig i +
            sinAt sampleHalfBig (i + numSamples sampleHalfBig / 2)) :=
  ⟨by decide, by decide, by decide, by decide⟩

/-- C3 amended: the half-period check reports exactly the minimum and
maximum over all `i < N/2` of the int64-wrapped sum
`wrap64 (sin[i] + sin[i + N/2])` — numpy int64 addition is modular, not
exact unbounded-integer arithmetic; every entry whose exact sum fits in
int64 is reported exactly; and for int64-range samples the range is
`(0, 0)` exactly when each exact sum is zero or hits the single wrapping
corner where both samples are the int64 minimum `-2^63`. -/
theorem claim_half_period_check (d : SampleSet)
    (h4 : 4 ≤ numSamples d) (hm : numSamples d % 4 = 0)
    (hb : boundedSamples d) :
    (∀ i < numSamples d / 2, (halfSum (dsin d)).getD i 0 =
        wrap64 (sinAt d i + sinAt d (i + numSamples d / 2)))
    ∧ (∀ i < numSamples d / 2,
        inInt64 (sinAt d i + sinAt d (i + numSamples d / 2)) →
        (halfSum (dsin d)).getD i 0 = sinAt d i + sinAt d (i + numSamples d / 2))
    ∧ (∀ i < numSamples d / 2, halfMin d ≤ (halfSum (dsin d)).getD i 0)
    ∧ (∃ i, i < numSamples d / 2 ∧ halfMin d = (halfSum (dsin d)).getD i 0)
    ∧ (∀ i < numSamples d / 2, (halfSum (dsin d)).getD i 0 ≤ halfMax d)
    ∧ (∃ i, i < numSamples d / 2 ∧ halfMax d = (halfSum (dsin d)).getD i 0)
    ∧ ((halfMin d = 0 ∧ halfMax d = 0) ↔
        ∀ i < numSamples d / 2,
          (sinAt d i + sinAt d (i + numSamples d / 2) = 0 ∨
            (sinAt d i = -9223372036854775808 ∧
              sinAt d (i + numSamples d / 2) = -9223372036854775808))) := by
  have hsl := dsin_length d
  have hhl : (halfSum (dsin d)).length = numSamples d / 2 := by
    rw [halfSum_length, hsl]
  have hidx : ∀ i < numSamples d / 2, (halfSum (dsin d)).getD i 0 =
      wrap64 (sinAt d i + sinAt d (i + numSamples d / 2)) := by
    intro i hi
    rw [halfSum_getD (dsin d) i (by omega)]
    unfold sinAt
    rw [hsl]
  have hmem : ∀ i < numSamples d / 2, (halfSum (dsin d)).getD i 0 ∈ halfSum (dsin d) := by
    intro i hi
    rw [List.getD_eq_getElem _ _ (by omega)]
    exact List.getElem_mem _
  have hne : halfSum (dsin d) ≠ [] := by
    intro hnil
    rw [hnil] at hhl
    simp at hhl
    omega
  have hminmem : ∃ i, i < numSamples d / 2 ∧
      halfMin d = (halfSum (dsin d)).getD i 0 := by
    obtain ⟨j, hj, hval⟩ := List.mem_iff_getElem.mp (listMin_mem hne)
    exact ⟨j, by omega, by rw [List.getD_eq_getElem _ _ hj, hval]; rfl⟩
  have hmaxmem : ∃ i, i < numSamples d / 2 ∧
      halfMax d = (halfSum (dsin d)).getD i 0 := by
    obtain ⟨j, hj, hval⟩ := List.mem_iff_getElem.mp (listMax_mem hne)
    exact ⟨j, by omega, by rw [List.getD_eq_getElem _ _ hj, hval]; rfl⟩
  have hminle : ∀ i < numSamples d / 2, halfMin d ≤ (halfSum (dsin d)).getD i 0 :=
    fun i hi => listMin_le (hmem i hi)
  have hlemax : ∀ i < numSamples d / 2, (halfSum (dsin d)).getD i 0 ≤ halfMax d :=
    fun i hi => le_listMax (hmem i hi)
  refine ⟨hidx, ?_, hminle, hminmem, hlemax, hmaxmem, ?_⟩
  · intro i hi hov
    rw [hidx i hi, wrap64_of_inInt64 hov]
  · constructor
    · rintro ⟨hmin0, hmax0⟩ i hi
      have h1 := hminle i hi
      have h2 := hlemax i hi
      have h3 : (halfSum (dsin d)).getD i 0 = 0 := by omega
      rw [hidx i hi] at h3
      exact (wrap64_add_eq_zero_iff (sinAt_bounded hb i) (sinAt_bounded hb _)).mp h3
    · intro hall
      have hz : ∀ i < numSamples d / 2, (halfSum (dsin d)).getD i 0 = 0 := by
        intro i hi
        rw [hidx i hi]
        exact (wrap64_add_eq_zero_iff (sinAt_bounded hb i)
          (sinAt_bounded hb _)).mpr (hall i hi)
      obtain ⟨i, hi, hv⟩ := hminmem
      obtain ⟨j, hj, hw⟩ := hmaxmem
      exact ⟨by rw [hv, hz i hi], by rw [hw, hz j hj]⟩

theorem claim_half_period_check_witness :
    4 ≤ numSamples sampleMut ∧ numSamples sampleMut % 4 = 0 ∧
    boundedSamples sampleMut ∧
    (∃ i, i < numSamples sampleMut / 2 ∧
      halfMin sampleMut = (halfSum (dsin sampleMut)).getD i 0) :=
  ⟨by decide, by decide, by decide,
    (claim_half_period_check sampleMut (by decide) (by decide)
      (by decide)).2.2.2.1⟩

/-- C1 counterexample: the analysis does not leave the input array unchanged
and is not idempotent — on the sample set with sine column `[0, 1, 0, -1]`
and zero cosine column, the quarter-period arithmetic writes through into the
array, and a second run reports a different quarter-period minimum. -/
theorem claim_frame_effect_counterexample :
    postData sampleMut ≠ sampleMut ∧
    quarterMin (postData sampleMut) ≠ quarterMin sampleMut :=
  ⟨by decide, by decide⟩

/-- C1 amended: `dcos = data[:,1]` is a numpy view, so the quarter-period
check mutates the input's cosine column in place (replacing `cos[i]` by the
int64-wrapped `cos[i] - sin[(i + N/4) mod N]`), while the sine column was
protected by `numpy.copy`; consequently every report field that depends
only on the sine column is bit-identical on a second run, but the
quarter-period deviation range in general is not. -/
theorem claim_frame_effect_amended (d : SampleSet)
    (h4 : 4 ≤ numSamples d) (hm : numSamples d % 4 = 0) :
    dsin (postData d) = dsin d
    ∧ dcos (postData d) = quarterDiff d
    ∧ (∀ i < numSamples d, cosAt (postData d) i =
        wrap64 (cosAt d i - sinAt d ((i + numSamples d / 4) % numSamples d)))
    ∧ halfMin (postData d) = halfMin d ∧ halfMax (postData d) = halfMax d
    ∧ offs (postData d) = offs d ∧ ampl (postData d) = ampl d
    ∧ phase (postData d) = phase d ∧ peakerr (postData d) = peakerr d
    ∧ rmserr (postData d) = rmserr d ∧ sinad (postData d) = sinad d
    ∧ enob (postData d) = enob d ∧ sfdr (postData d) = sfdr d := by
  have hs := dsin_postData d
  have hc := dcos_postData d
  refine ⟨hs, hc, ?_, ?_, ?_, ?_, ?_, ?_, ?_, ?_, ?_, ?_, ?_⟩
  · intro i hi
    unfold cosAt
    rw [hc]
    exact quarterDiff_getD d i hi
  · simp only [halfMin, hs]
  · simp only [halfMax, hs]
  · simp only [offs, hs]
  · simp only [ampl, hs]
  · simp only [phase, hs]
  · simp only [peakerr, hs]
  · simp only [rmserr, hs]
  · simp only [sinad, hs]
  · simp only [enob, hs]
  · simp only [sfdr, hs]

theorem claim_frame_effect_amended_witness :
    4 ≤ numSamples sampleMut ∧ numSamples sampleMut % 4 = 0 ∧
    dcos (postData sampleMut) = quarterDiff sampleMut :=
  ⟨by decide, by decide,
    (claim_frame_effect_amended sampleMut (by decide) (by decide)).2.1⟩

theorem theta_eq (n i : Nat) : theta n i = 2 * Real.pi * i / n := by
  unfold theta
  ring

/-- C6: the reported offset is the arithmetic mean of the sine samples, and
amplitude and phase come from the single-bin DFT projection
`asin = (2/N)·Σ sin_values[i]·sin(θ_i)`, `acos = (2/N)·Σ sin_values[i]·cos(θ_i)`
with `θ_i = 2π·i/N`, `amplitude = sqrt(asin² + acos²)`,
`phase = atan2(acos, asin)`. -/
theorem claim_spectral_projection (d : SampleSet)
    (h4 : 4 ≤ numSamples d) (hm : numSamples d % 4 = 0) :
    offs d = (∑ i ∈ Finset.range (numSamples d), (sinAt d i : ℝ)) / numSamples d
    ∧ asin d = (2 / numSamples d) *
        ∑ i ∈ Finset.range (numSamples d),
          (sinAt d i : ℝ) * Real.sin (2 * Real.pi * i / numSamples d)
    ∧ acos d = (2 / numSamples d) *
        ∑ i ∈ Finset.range (numSamples d),
          (sinAt d i : ℝ) * Real.cos (2 * Real.pi * i / numSamples d)
    ∧ ampl d = Real.sqrt (asin d ^ 2 + acos d ^ 2)
    ∧ phase d = arctan2 (acos d) (asin d) := by
  have hsl := dsin_length d
  refine ⟨?_, ?_, ?_, rfl, rfl⟩
  · unfold offs offsL elemR sinAt
    rw [hsl]
  · unfold asin asinL elemR sinAt
    rw [hsl]
    rw [Finset.sum_congr rfl (fun i _ => by rw [theta_eq])]
    ring
  · unfold acos acosL elemR sinAt
    rw [hsl]
    rw [Finset.sum_congr rfl (fun i _ => by rw [theta_eq])]
    ring

theorem claim_spectral_projection_witness :
    4 ≤ numSamples sampleA ∧ numSamples sampleA % 4 = 0 ∧
    ampl sampleA = Real.sqrt (asin sampleA ^ 2 + acos sampleA ^ 2) :=
  ⟨by decide, by decide,
    (claim_spectral_projection sampleA (by decide) (by decide)).2.2.2.1⟩

/-- C7: the error sequence is `sin_values[i] - amplitude·sin(θ_i)` with the
recovered phase not reapplied; `peak_error` is the maximum of `|error[i]|`
and `rms_error` is the population standard deviation of the error
sequence. -/
theorem claim_error_metrics (d : SampleSet)
    (h4 : 4 ≤ numSamples d) (hm : numSamples d % 4 = 0) :
    (∀ i < numSamples d, terr d i =
        (sinAt d i : ℝ) - ampl d * Real.sin (2 * Real.pi * i / numSamples d))
    ∧ (∀ i < numSamples d, |terr d i| ≤ peakerr d)
    ∧ (∃ i, i < numSamples d ∧ peakerr d = |terr d i|)
    ∧ rmserr d = popStd (numSamples d) (terr d) := by
  have hsl := dsin_length d
  have habs : ∀ i < numSamples d,
      |terr d i| ∈ (List.range (dsin d).length).map fun i => |terrL (dsin d) i| := by
    intro i hi
    exact List.mem_map.mpr ⟨i, List.mem_range.mpr (by omega), rfl⟩
  refine ⟨?_, ?_, ?_, ?_⟩
  · intro i hi
    unfold terr terrL elemR sinAt ampl
    rw [hsl, theta_eq]
  · intro i hi
    exact le_listMax (habs i hi)
  · have hne : ((List.range (dsin d).length).map fun i => |terrL (dsin d) i|) ≠ [] := by
      have hlenm : ((List.range (dsin d).length).map fun i => |terrL (dsin d) i|).length
          = numSamples d := by simp [hsl]
      intro hnil
      rw [hnil] at hlenm
      simp at hlenm
      omega
    obtain ⟨i, hmem, hval⟩ := List.mem_map.mp (listMax_mem hne)
    exact ⟨i, by have := List.mem_range.mp hmem; omega, hval.symm⟩
  · unfold rmserr rmserrL errMeanL popStd terr
    rw [hsl]

theorem claim_error_metrics_witness :
    4 ≤ numSamples sampleA ∧ numSamples sampleA % 4 = 0 ∧
    rmserr sampleA = popStd (numSamples sampleA) (terr sampleA) :=
  ⟨by decide, by decide,
    (claim_error_metrics sampleA (by decide) (by decide)).2.2.2⟩

/-! ### Concrete evaluation of the spectral metrics on small inputs -/

theorem theta_four (i : Nat) : theta 4 i = i * (Real.pi / 2) := by
  unfold theta
  push_cast
  ring

theorem sin_theta4_0 : Real.sin (theta 4 0) = 0 := by
  rw [theta_four]
  simp

theorem sin_theta4_1 : Real.sin (theta 4 1) = 1 := by
  rw [theta_four]
  simp

theorem sin_theta4_2 : Real.sin (theta 4 2) = 0 := by
  rw [theta_four, show ((2:ℕ):ℝ) * (Real.pi / 2) = Real.pi by push_cast; ring]
  exact Real.sin_pi

theorem sin_theta4_3 : Real.sin (theta 4 3) = -1 := by
  rw [theta_four,
    show ((3:ℕ):ℝ) * (Real.pi / 2) = Real.pi + Real.pi / 2 by push_cast; ring]
  rw [Real.sin_add, Real.sin_pi, Real.cos_pi, Real.sin_pi_div_two,
    Real.cos_pi_div_two]
  ring

theorem cos_theta4_0 : Real.cos (theta 4 0) = 1 := by
  rw [theta_four]
  simp

theorem cos_theta4_1 : Real.cos (theta 4 1) = 0 := by
  rw [theta_four]
  simp

theorem cos_theta4_2 : Real.cos (theta 4 2) = -1 := by
  rw [theta_four, show ((2:ℕ):ℝ) * (Real.pi / 2) = Real.pi by push_cast; ring]
  exact Real.cos_pi

theorem cos_theta4_3 : Real.cos (theta 4 3) = 0 := by
  rw [theta_four,
    show ((3:ℕ):ℝ) * (Real.pi / 2) = Real.pi + Real.pi / 2 by push_cast; ring]
  rw [Real.cos_add, Real.sin_pi, Real.cos_pi, Real.sin_pi_div_two,
    Real.cos_pi_div_two]
  ring

theorem dsin_sampleA_eq : dsin sampleA = [0, 0, 0, 1] := rfl

theorem asinL_sampleA : asinL (dsin sampleA) = -(1 / 2) := by
  unfold asinL elemR
  rw [dsin_sampleA_eq]
  norm_num [Finset.sum_range_succ, sin_theta4_0, sin_theta4_1, sin_theta4_2,
    sin_theta4_3]

theorem acosL_sampleA : acosL (dsin sampleA) = 0 := by
  unfold acosL elemR
  rw [dsin_sampleA_eq]
  norm_num [Finset.sum_range_succ, cos_theta4_0, cos_theta4_1, cos_theta4_2,
    cos_theta4_3]

theorem amplL_sampleA : amplL (dsin sampleA) = 1 / 2 := by
  unfold amplL
  rw [asinL_sampleA, acosL_sampleA,
    show (-(1/2):ℝ) ^ 2 + (0:ℝ) ^ 2 = (1/2) ^ 2 by norm_num]
  exact Real.sqrt_sq (by norm_num)

theorem terrL_sampleA_0 : terrL (dsin sampleA) 0 = 0 := by
  unfold terrL elemR
  rw [amplL_sampleA, show (dsin sampleA).length = 4 from rfl, sin_theta4_0]
  norm_num [dsin_sampleA_eq]

theorem terrL_sampleA_1 : terrL (dsin sampleA) 1 = -(1 / 2) := by
  unfold terrL elemR
  rw [amplL_sampleA, show (dsin sampleA).length = 4 from rfl, sin_theta4_1]
  norm_num [dsin_sampleA_eq]

theorem terrL_sampleA_2 : terrL (dsin sampleA) 2 = 0 := by
  unfold terrL elemR
  rw [amplL_sampleA, show (dsin sampleA).length = 4 from rfl, sin_theta4_2]
  norm_num [dsin_sampleA_eq]

theorem terrL_sampleA_3 : terrL (dsin sampleA) 3 = 3 / 2 := by
  unfold terrL elemR
  rw [amplL_sampleA, show (dsin sampleA).length = 4 from rfl, sin_theta4_3]
  norm_num [dsin_sampleA_eq]

theorem errMeanL_sampleA : errMeanL (dsin sampleA) = 1 / 4 := by
  unfold errMeanL
  rw [show (dsin sampleA).length = 4 from rfl]
  rw [show (∑ i ∈ Finset.range 4, terrL (dsin sampleA) i) = 1 by
    norm_num [Finset.sum_range_succ, terrL_sampleA_0, terrL_sampleA_1,
      terrL_sampleA_2, terrL_sampleA_3]]
  norm_num

theorem rmserrL_sampleA : rmserrL (dsin sampleA) = 3 / 4 := by
  unfold rmserrL
  rw [show (dsin sampleA).length = 4 from rfl]
  rw [show (∑ i ∈ Finset.range 4,
      (terrL (dsin sampleA) i - errMeanL (dsin sampleA)) ^ 2) = 9 / 4 by
    norm_num [Finset.sum_range_succ, terrL_sampleA_0, terrL_sampleA_1,
      terrL_sampleA_2, terrL_sampleA_3, errMeanL_sampleA]]
  rw [show ((9:ℝ)/4) / ((4:ℕ):ℝ) = (3/4) ^ 2 by push_cast; norm_num]
  exact Real.sqrt_sq (by norm_num)

theorem rmserr_sampleA_pos : 0 < rmserr sampleA := by
  have h : rmserr sampleA = 3 / 4 := rmserrL_sampleA
  rw [h]
  norm_num

/-- C8: SINAD is `20·log10(amplitude·sqrt(0.5)/rms_error)` and ENOB is
`(SINAD - 1.76)/6.02`, built from the amplitude and RMS error of the
preceding steps. -/
theorem claim_sinad_enob (d : SampleSet)
    (h4 : 4 ≤ numSamples d) (hm : numSamples d % 4 = 0)
    (hr : 0 < rmserr d) :
    sinad d = 20 * Real.logb 10 (ampl d * Real.sqrt 0.5 / rmserr d)
    ∧ enob d = (sinad d - 1.76) / 6.02 :=
  ⟨rfl, rfl⟩

theorem claim_sinad_enob_witness :
    4 ≤ numSamples sampleA ∧ numSamples sampleA % 4 = 0 ∧
    0 < rmserr sampleA ∧
    enob sampleA = (sinad sampleA - 1.76) / 6.02 :=
  ⟨by decide, by decide, rmserr_sampleA_pos,
    (claim_sinad_enob sampleA (by decide) (by decide) rmserr_sampleA_pos).2⟩

theorem elemR_sampleZero (i : Nat) : elemR (dsin sampleZero) i = 0 := by
  unfold elemR
  rw [show dsin sampleZero = [0, 0, 0, 0] from rfl]
  rcases i with _ | _ | _ | _ | i <;> simp

/-- C5: on the all-zero (degenerate, `rms_error = 0`) sample set the code
reaches `20*log10(ampl*sqrt(0.5)/rmserr)` with `rmserr = 0` (and
`ampl = 0`): the division by zero is hit, with no documented sentinel. -/
theorem claim_degenerate_signal :
    rmserr sampleZero = 0 ∧ ampl sampleZero = 0 := by
  have hampl : amplL (dsin sampleZero) = 0 := by
    unfold amplL asinL acosL
    simp [elemR_sampleZero]
  have hterr : ∀ i, terrL (dsin sampleZero) i = 0 := by
    intro i
    unfold terrL
    rw [elemR_sampleZero, hampl]
    ring
  constructor
  · show rmserrL (dsin sampleZero) = 0
    unfold rmserrL errMeanL
    simp [hterr]
  · exact hampl

/-! ### SFDR: the spur search range -/

theorem mem_range_drop_two {N k : Nat} (h2 : 2 ≤ k) (hk : k < N) :
    k ∈ (List.range N).drop 2 := by
  rw [List.mem_iff_getElem]
  refine ⟨k - 2, by simp [List.length_drop]; omega, ?_⟩
  rw [List.getElem_drop, List.getElem_range]
  omega

theorem of_mem_range_drop_two {N x : Nat} (hx : x ∈ (List.range N).drop 2) :
    2 ≤ x ∧ x < N := by
  obtain ⟨j, hj, hval⟩ := List.mem_iff_getElem.mp hx
  rw [List.getElem_drop, List.getElem_range] at hval
  have hjl : j < N - 2 := by
    have hj2 := hj
    simp [List.length_drop] at hj2
    omega
  omega

/-- C9: SFDR equals `20·log10(tampl/tspur)` where `tampl` is the magnitude
of bin 1 of the real-input DFT of the sine column and `tspur` is the largest
magnitude over bins `2 .. N/2` — the DC bin 0 and the fundamental bin 1 are
excluded from the spur search. -/
theorem claim_sfdr (d : SampleSet)
    (h4 : 4 ≤ numSamples d) (hm : numSamples d % 4 = 0) :
    sfdr d = 20 * Real.logb 10 (tampl d / tspur d)
    ∧ tampl d = Complex.abs (rfftBin (dsin d) 1)
    ∧ (∀ k, 2 ≤ k → k ≤ numSamples d / 2 →
        Complex.abs (rfftBin (dsin d) k) ≤ tspur d)
    ∧ (∃ k, 2 ≤ k ∧ k ≤ numSamples d / 2 ∧
        tspur d = Complex.abs (rfftBin (dsin d) k)) := by
  have hsl := dsin_length d
  refine ⟨rfl, rfl, ?_, ?_⟩
  · intro k h2 hk
    show Complex.abs (rfftBin (dsin d) k) ≤ listMax (spurAbs (dsin d))
    exact le_listMax (List.mem_map.mpr ⟨k, mem_range_drop_two h2 (by omega), rfl⟩)
  · have hne : spurAbs (dsin d) ≠ [] := by
      unfold spurAbs
      intro hnil
      have hlen := congrArg List.length hnil
      simp [List.length_drop] at hlen
      omega
    obtain ⟨k, hkmem, hval⟩ := List.mem_map.mp (listMax_mem hne)
    obtain ⟨hk2, hkN⟩ := of_mem_range_drop_two hkmem
    exact ⟨k, hk2, by omega, hval.symm⟩

theorem claim_sfdr_witness :
    4 ≤ numSamples sampleA ∧ numSamples sampleA % 4 = 0 ∧
    sfdr sampleA = 20 * Real.logb 10 (tampl sampleA / tspur sampleA) :=
  ⟨by decide, by decide, (claim_sfdr sampleA (by decide) (by decide)).1⟩

end SineQual
